import Mathlib

/-!
Verification of the categorical distribution implementation in
`src/distribution/categorical.rs` (statrs).

Floating-point doubles are modelled exactly: an input value is either `NaN`
or a finite value represented as a rational number, and arithmetic on the
success path is exact rational arithmetic.  Panics and out-of-bounds
unchecked reads are modelled by `Option`/`Except` failure values.
-/

namespace Statrs

/-- Model of an `f64` input value: either NaN or a finite value represented
exactly as a rational number. -/
inductive F64 where
  | nan : F64
  | fin : ℚ → F64
deriving DecidableEq

/-- IEEE `is_nan` test. -/
def F64.isNaN : F64 → Bool
  | .nan => true
  | .fin _ => false

/-- IEEE comparison `x < y`: false whenever an operand is NaN. -/
def F64.lt : F64 → F64 → Bool
  | .fin a, .fin b => decide (a < b)
  | _, _ => false

/-- IEEE equality `x == y`: false whenever an operand is NaN. -/
def F64.beq : F64 → F64 → Bool
  | .fin a, .fin b => decide (a = b)
  | _, _ => false

/-- Numeric value of a non-NaN input (defaults to 0 on NaN; on the success
path of `new` no NaN is present). -/
def F64.val : F64 → ℚ
  | .nan => 0
  | .fin q => q

/-- The error type of the crate, restricted to the variant used here. -/
inductive StatsError where
  | BadParams : StatsError
deriving DecidableEq

/-- `is_valid_prob_mass` from categorical.rs:
`!p.iter().any(|&x| x < 0.0 || x.is_nan()) && !p.iter().all(|&x| x == 0.0)`. -/
def is_valid_prob_mass (p : List F64) : Bool :=
  !(p.any fun x => x.lt (.fin 0) || x.isNaN) && !(p.all fun x => x.beq (.fin 0))

/-- The `Categorical` struct: normalized probability masses and the
unnormalized cumulative (prefix-sum) array. -/
structure Categorical where
  norm_pmf : List ℚ
  cdf : List ℚ
deriving DecidableEq

/-- Running prefix sums starting from accumulator `a`:
`cumsumFrom a [x1, x2, ...] = [a+x1, a+x1+x2, ...]`. -/
def cumsumFrom (a : ℚ) : List ℚ → List ℚ
  | [] => []
  | x :: xs => (a + x) :: cumsumFrom (a + x) xs

/-- Left-to-right prefix sums, modelling the loop
`cdf[0] = prob_mass[0]; for i in 1.. { cdf[i] = cdf[i-1] + prob_mass[i] }`. -/
def cumsum (l : List ℚ) : List ℚ := cumsumFrom 0 l

/-- `Categorical::new`: validate, build the unnormalized cdf by a
left-to-right running sum, and divide each weight by the last cdf entry. -/
def Categorical.new (prob_mass : List F64) : Except StatsError Categorical :=
  if !is_valid_prob_mass prob_mass then
    .error .BadParams
  else
    .ok ⟨(prob_mass.map F64.val).map
            (fun x => x / (cumsum (prob_mass.map F64.val)).getLastD 0),
          cumsum (prob_mass.map F64.val)⟩

/-- `Categorical::cdf_max`: the last entry of the cdf array. -/
def Categorical.cdf_max (c : Categorical) : ℚ := c.cdf.getLastD 0

/-- `Univariate::cdf`: asserts `0 <= x <= k` (modelled by `none` on the
panic path), returns `1` at `x = k` and `cdf[x as usize] / cdf_max`
otherwise (the cast truncates, which is `floor` on nonnegative input). -/
def Categorical.cdfAt (c : Categorical) (x : ℚ) : Option ℚ :=
  if 0 ≤ x ∧ x ≤ (c.cdf.length : ℚ) then
    if x = (c.cdf.length : ℚ) then some 1
    else some (c.cdf.getD (⌊x⌋.toNat) 0 / c.cdf_max)
  else none

/-- The linear search loop `while draw > *el { idx += 1; el = cdf[idx] }`
run over the remaining suffix of the cdf array; `none` models an
out-of-bounds unchecked read past the end. -/
def linSearch (draw : ℚ) : List ℚ → ℕ → Option ℕ
  | [], _ => none
  | e :: rest, idx => if draw > e then linSearch draw rest (idx + 1) else some idx

/-- The zero-draw skip loop `while *el == 0.0 { idx += 1; el = cdf[idx] }`:
returns the first index holding a nonzero entry together with the suffix
starting there; `none` models a read past the end. -/
def skipZeros : List ℚ → ℕ → Option (ℕ × List ℚ)
  | [], _ => none
  | e :: rest, idx =>
    if e = 0 then skipZeros rest (idx + 1) else some (idx, e :: rest)

/-- `Distribution::sample` with the uniform draw `u ∈ [0,1)` made explicit:
`draw = u * cdf_max`; on an exact zero draw first skip leading zero
entries, then linearly search for the first index with `draw ≤ cdf[idx]`. -/
def Categorical.sampleAt (c : Categorical) (u : ℚ) : Option ℕ :=
  if u * c.cdf_max = 0 then
    match skipZeros c.cdf 0 with
    | none => none
    | some (idx, rest) => linSearch (u * c.cdf_max) rest idx
  else
    linSearch (u * c.cdf_max) c.cdf 0

/-- `Sample::sample` (the mutable-receiver trait method) in state-passing
form: its body only delegates to the immutable `Distribution::sample`,
returning the receiver unchanged. -/
def Categorical.sampleMut (c : Categorical) (u : ℚ) : Option ℕ × Categorical :=
  (c.sampleAt u, c)

/-- `Min::min`: always 0. -/
def Categorical.min (_ : Categorical) : ℕ := 0

/-- `Max::max`: `cdf.len() - 1`. -/
def Categorical.max (c : Categorical) : ℕ := c.cdf.length - 1

/-- `Mean::mean`: `norm_pmf.iter().enumerate().fold(0.0, |acc, (idx, &val)|
acc + idx as f64 * val)`. -/
def Categorical.mean (c : Categorical) : ℚ :=
  c.norm_pmf.enum.foldl (fun acc p => acc + (p.1 : ℚ) * p.2) 0

/-- Uniform rescaling of an input weight array by a factor `t`
(NaN stays NaN). -/
def F64.scale (t : ℚ) : F64 → F64
  | .nan => .nan
  | .fin q => .fin (t * q)



theorem cumsumFrom_length (a : ℚ) (l : List ℚ) : (cumsumFrom a l).length = l.length := by
  induction l generalizing a with
  | nil => rfl
  | cons x xs ih => simp [cumsumFrom, ih]

theorem cumsum_length (l : List ℚ) : (cumsum l).length = l.length := cumsumFrom_length 0 l

theorem cumsumFrom_getD (a : ℚ) (l : List ℚ) (i : ℕ) (h : i < l.length) :
    (cumsumFrom a l).getD i 0 = a + (l.take (i + 1)).sum := by
  induction l generalizing a i with
  | nil => simp at h
  | cons x xs ih =>
    cases i with
    | zero => simp [cumsumFrom]
    | succ j =>
      have hj : j < xs.length := by simpa using h
      rw [cumsumFrom, List.getD_cons_succ, ih (a + x) j hj, List.take_succ_cons,
        List.sum_cons]
      ring

theorem cumsum_getD (l : List ℚ) (i : ℕ) (h : i < l.length) :
    (cumsum l).getD i 0 = (l.take (i + 1)).sum := by
  simpa [cumsum] using cumsumFrom_getD 0 l i h

theorem getLastD_eq_getD (l : List ℚ) (h : l ≠ []) :
    l.getLastD 0 = l.getD (l.length - 1) 0 := by
  induction l with
  | nil => exact absurd rfl h
  | cons x xs ih =>
    cases xs with
    | nil => rfl
    | cons y ys =>
      have := ih (by simp)
      simp only [List.getLastD_cons] at *
      simpa using this

theorem cumsum_ne_nil (l : List ℚ) (h : l ≠ []) : cumsum l ≠ [] := by
  intro hc
  apply h
  have hl := cumsum_length l
  rw [hc] at hl
  exact List.length_eq_zero.mp hl.symm

theorem cumsum_getLastD (l : List ℚ) (h : l ≠ []) :
    (cumsum l).getLastD 0 = l.sum := by
  have hpos : 0 < l.length := List.length_pos.mpr h
  rw [getLastD_eq_getD _ (cumsum_ne_nil l h), cumsum_length,
    cumsum_getD l (l.length - 1) (by omega)]
  have he : l.length - 1 + 1 = l.length := by omega
  rw [he, List.take_length]

theorem sum_take_le (l : List ℚ) (hn : ∀ x ∈ l, 0 ≤ x) (n : ℕ) :
    (l.take n).sum ≤ l.sum := by
  have hd : 0 ≤ (l.drop n).sum :=
    List.sum_nonneg fun x hx => hn x ((List.drop_sublist n l).mem hx)
  have := List.sum_take_add_sum_drop l n
  linarith

theorem sum_take_mono (l : List ℚ) (hn : ∀ x ∈ l, 0 ≤ x) {m n : ℕ} (h : m ≤ n) :
    (l.take m).sum ≤ (l.take n).sum := by
  have h1 : (l.take n).take m = l.take m := by
    rw [List.take_take]
    simp [Nat.min_eq_left h]
  calc (l.take m).sum = ((l.take n).take m).sum := by rw [h1]
    _ ≤ (l.take n).sum :=
      sum_take_le _ (fun x hx => hn x ((List.take_sublist n l).mem hx)) m

theorem cumsum_mono (l : List ℚ) (hn : ∀ x ∈ l, 0 ≤ x) {i j : ℕ}
    (hij : i ≤ j) (hj : j < l.length) :
    (cumsum l).getD i 0 ≤ (cumsum l).getD j 0 := by
  rw [cumsum_getD l i (lt_of_le_of_lt hij hj), cumsum_getD l j hj]
  exact sum_take_mono l hn (by omega)

theorem cumsum_getD_nonneg (l : List ℚ) (hn : ∀ x ∈ l, 0 ≤ x) (i : ℕ) :
    0 ≤ (cumsum l).getD i 0 := by
  by_cases h : i < l.length
  · rw [cumsum_getD l i h]
    exact List.sum_nonneg fun x hx => hn x ((List.take_sublist _ l).mem hx)
  · rw [List.getD_eq_default]
    rw [cumsum_length]
    omega

theorem cumsum_getD_succ (l : List ℚ) (i : ℕ) (h : i + 1 < l.length) :
    (cumsum l).getD (i + 1) 0 = (cumsum l).getD i 0 + l.getD (i + 1) 0 := by
  rw [cumsum_getD l (i + 1) h, cumsum_getD l i (by omega),
    List.sum_take_succ l (i + 1) h, List.getD_eq_getElem l 0 h]

theorem cumsum_getD_zero (l : List ℚ) (h : l ≠ []) :
    (cumsum l).getD 0 0 = l.getD 0 0 := by
  have hpos : 0 < l.length := List.length_pos.mpr h
  rw [cumsum_getD l 0 hpos]
  cases l with
  | nil => simp at h
  | cons x xs => simp



theorem new_ok_elim {w : List F64} {c : Categorical}
    (h : Categorical.new w = .ok c) :
    is_valid_prob_mass w = true ∧
      c.cdf = cumsum (w.map F64.val) ∧
      c.norm_pmf = (w.map F64.val).map
        (fun x => x / (cumsum (w.map F64.val)).getLastD 0) := by
  by_cases hv : is_valid_prob_mass w
  · refine ⟨hv, ?_, ?_⟩ <;>
    · rw [Categorical.new, hv] at h
      simp only [Bool.not_true, Bool.false_eq_true, if_false, Except.ok.injEq] at h
      rw [← h]
  · rw [Bool.not_eq_true] at hv
    rw [Categorical.new, hv] at h
    simp at h

theorem valid_parts {w : List F64} (hv : is_valid_prob_mass w = true) :
    (w.any fun x => x.lt (.fin 0) || x.isNaN) = false ∧
      (w.all fun x => x.beq (.fin 0)) = false := by
  simpa only [is_valid_prob_mass, Bool.and_eq_true, Bool.not_eq_true'] using hv

theorem valid_ne_nil {w : List F64} (hv : is_valid_prob_mass w = true) : w ≠ [] := by
  intro he
  rw [he] at hv
  simp [is_valid_prob_mass] at hv

theorem valid_no_nan {w : List F64} (hv : is_valid_prob_mass w = true) :
    ∀ x ∈ w, x.isNaN = false := by
  intro x hx
  have h1 := (List.any_eq_false.mp (valid_parts hv).1) x hx
  simp only [Bool.or_eq_true, not_or, Bool.not_eq_true] at h1
  exact h1.2

theorem valid_nonneg {w : List F64} (hv : is_valid_prob_mass w = true) :
    ∀ q ∈ w.map F64.val, 0 ≤ q := by
  intro q hq
  rw [List.mem_map] at hq
  obtain ⟨x, hx, hxq⟩ := hq
  have h1 := (List.any_eq_false.mp (valid_parts hv).1) x hx
  simp only [Bool.or_eq_true, not_or, Bool.not_eq_true] at h1
  cases x with
  | nan => rw [← hxq]; simp [F64.val]
  | fin a =>
    rw [← hxq]
    have := h1.1
    simp only [F64.lt, decide_eq_false_iff_not, not_lt] at this
    simpa [F64.val] using this

theorem valid_exists_pos {w : List F64} (hv : is_valid_prob_mass w = true) :
    ∃ q ∈ w.map F64.val, 0 < q := by
  obtain ⟨x, hx, hxb⟩ := List.all_eq_false.mp (valid_parts hv).2
  have hnn := valid_no_nan hv x hx
  cases x with
  | nan => simp [F64.isNaN] at hnn
  | fin a =>
    refine ⟨a, List.mem_map.mpr ⟨.fin a, hx, rfl⟩, ?_⟩
    simp only [F64.beq, Bool.not_eq_true, decide_eq_false_iff_not] at hxb
    have hge : 0 ≤ a := by
      have := valid_nonneg hv a (List.mem_map.mpr ⟨.fin a, hx, rfl⟩)
      simpa [F64.val] using this
    exact lt_of_le_of_ne hge (fun hh => hxb hh.symm)

theorem valid_sum_pos {w : List F64} (hv : is_valid_prob_mass w = true) :
    0 < (w.map F64.val).sum := by
  obtain ⟨q, hq, hqpos⟩ := valid_exists_pos hv
  have := List.single_le_sum (valid_nonneg hv) q hq
  linarith

theorem new_cdf_max_pos {w : List F64} {c : Categorical}
    (h : Categorical.new w = .ok c) : 0 < c.cdf_max := by
  obtain ⟨hv, hcdf, _⟩ := new_ok_elim h
  have hne : w.map F64.val ≠ [] := by
    intro he
    exact valid_ne_nil hv (List.map_eq_nil_iff.mp he)
  rw [Categorical.cdf_max, hcdf, cumsum_getLastD _ hne]
  exact valid_sum_pos hv



theorem new_error_iff_invalid {w : List F64} :
    Categorical.new w = .error .BadParams ↔ is_valid_prob_mass w = false := by
  by_cases hv : is_valid_prob_mass w
  · rw [Categorical.new, hv]
    simp [hv]
  · rw [Bool.not_eq_true] at hv
    rw [Categorical.new, hv]
    simp [hv]

theorem new_ok_iff_valid {w : List F64} :
    (∃ c, Categorical.new w = .ok c) ↔ is_valid_prob_mass w = true := by
  by_cases hv : is_valid_prob_mass w
  · rw [Categorical.new, hv]
    simp [hv]
  · rw [Bool.not_eq_true] at hv
    rw [Categorical.new, hv]
    simp [hv]

theorem valid_false_iff {w : List F64} :
    is_valid_prob_mass w = false ↔
      ((∃ x ∈ w, x.lt (.fin 0) = true) ∨ (∃ x ∈ w, x.isNaN = true) ∨
        ∀ x ∈ w, x.beq (.fin 0) = true) := by
  simp only [is_valid_prob_mass, List.any_eq_true, List.all_eq_true, Bool.and_eq_false_iff,
    Bool.not_eq_false', Bool.not_eq_true', List.any_eq_false, List.all_eq_false,
    Bool.or_eq_true, Bool.or_eq_false_iff]
  constructor
  · rintro (h | h)
    · obtain ⟨x, hx, hc⟩ := h
      rcases hc with hc | hc
      · exact Or.inl ⟨x, hx, hc⟩
      · exact Or.inr (Or.inl ⟨x, hx, hc⟩)
    · exact Or.inr (Or.inr h)
  · rintro (⟨x, hx, hc⟩ | ⟨x, hx, hc⟩ | h)
    · exact Or.inl ⟨x, hx, Or.inl hc⟩
    · exact Or.inl ⟨x, hx, Or.inr hc⟩
    · exact Or.inr h



theorem empty_or_bad_iff_invalid {w : List F64} :
    (w = [] ∨ (∃ x ∈ w, x.lt (.fin 0) = true) ∨ (∃ x ∈ w, x.isNaN = true) ∨
        ∀ x ∈ w, x.beq (.fin 0) = true) ↔ is_valid_prob_mass w = false := by
  constructor
  · rintro (he | h)
    · subst he
      rw [valid_false_iff]
      right; right
      intro x hx
      simp at hx
    · exact valid_false_iff.mpr h
  · intro h
    exact Or.inr (valid_false_iff.mp h)

/-- Claim C2: `new(weights)` returns a parameter error exactly when the input
is empty, contains a negative value, contains a NaN value, or is an all-zero
array; every other input succeeds, and on failure no object is produced. -/
theorem new_fails_iff_bad_input (w : List F64) :
    (Categorical.new w = .error .BadParams ↔
      (w = [] ∨ (∃ x ∈ w, x.lt (.fin 0) = true) ∨ (∃ x ∈ w, x.isNaN = true) ∨
        ∀ x ∈ w, x.beq (.fin 0) = true))
    ∧ ((∃ c, Categorical.new w = .ok c) ↔
      ¬(w = [] ∨ (∃ x ∈ w, x.lt (.fin 0) = true) ∨ (∃ x ∈ w, x.isNaN = true) ∨
        ∀ x ∈ w, x.beq (.fin 0) = true)) := by
  refine ⟨new_error_iff_invalid.trans empty_or_bad_iff_invalid.symm, ?_⟩
  rw [new_ok_iff_valid]
  constructor
  · intro hv hcon
    have := empty_or_bad_iff_invalid.mp hcon
    rw [hv] at this
    exact Bool.true_eq_false.mp this
  · intro hn
    cases hb : is_valid_prob_mass w
    · exact absurd (empty_or_bad_iff_invalid.mpr hb) hn
    · rfl




/-- Claim C1: on every accepted input, `cdf[i]` is the left-to-right prefix
sum of the weights through index `i`, and `norm_pmf[i]` is `weights[i]`
divided by `cdf[k-1]`. -/
theorem new_prefix_sum_and_normalization :
    ∀ (w : List F64) (c : Categorical), Categorical.new w = .ok c →
      ∀ i, i < w.length →
        c.cdf.getD i 0 = ((w.take (i + 1)).map F64.val).sum ∧
        c.norm_pmf.getD i 0 = (w.getD i F64.nan).val / c.cdf.getD (w.length - 1) 0 := by
  intro w c h i hi
  obtain ⟨hv, hcdf, hnorm⟩ := new_ok_elim h
  have hwne : w ≠ [] := valid_ne_nil hv
  have hlne : w.map F64.val ≠ [] := fun he => hwne (List.map_eq_nil_iff.mp he)
  have hi' : i < (w.map F64.val).length := by simpa using hi
  have hden : c.cdf.getD (w.length - 1) 0 = (cumsum (w.map F64.val)).getLastD 0 := by
    rw [hcdf, getLastD_eq_getD _ (cumsum_ne_nil _ hlne), cumsum_length, List.length_map]
  refine ⟨?_, ?_⟩
  · rw [hcdf, cumsum_getD _ i hi', ← List.map_take]
  · rw [hden, hnorm]
    have hi2 : i < ((w.map F64.val).map
        (fun x => x / (cumsum (w.map F64.val)).getLastD 0)).length := by simpa using hi
    rw [List.getD_eq_getElem _ _ hi2, List.getElem_map]
    congr 1
    rw [List.getElem_map, List.getD_eq_getElem w F64.nan hi]




theorem new_cdf_ne_nil {w : List F64} {c : Categorical}
    (h : Categorical.new w = .ok c) : c.cdf ≠ [] := by
  obtain ⟨hv, hcdf, _⟩ := new_ok_elim h
  rw [hcdf]
  exact cumsum_ne_nil _ (fun he => valid_ne_nil hv (List.map_eq_nil_iff.mp he))

theorem new_cdf_mono {w : List F64} {c : Categorical}
    (h : Categorical.new w = .ok c) {i j : ℕ} (hij : i ≤ j) (hj : j < c.cdf.length) :
    c.cdf.getD i 0 ≤ c.cdf.getD j 0 := by
  obtain ⟨hv, hcdf, _⟩ := new_ok_elim h
  rw [hcdf] at hj ⊢
  rw [cumsum_length] at hj
  exact cumsum_mono _ (valid_nonneg hv) hij hj

theorem new_cdf_nonneg {w : List F64} {c : Categorical}
    (h : Categorical.new w = .ok c) (i : ℕ) : 0 ≤ c.cdf.getD i 0 := by
  obtain ⟨hv, hcdf, _⟩ := new_ok_elim h
  rw [hcdf]
  exact cumsum_getD_nonneg _ (valid_nonneg hv) i

theorem new_cdf_max_eq_getD {w : List F64} {c : Categorical}
    (h : Categorical.new w = .ok c) :
    c.cdf_max = c.cdf.getD (c.cdf.length - 1) 0 := by
  rw [Categorical.cdf_max, getLastD_eq_getD _ (new_cdf_ne_nil h)]

theorem new_cdf_le_max {w : List F64} {c : Categorical}
    (h : Categorical.new w = .ok c) {i : ℕ} (hi : i < c.cdf.length) :
    c.cdf.getD i 0 ≤ c.cdf_max := by
  rw [new_cdf_max_eq_getD h]
  exact new_cdf_mono h (by omega) (by omega)

/-- Claim C3: for a constructed distribution and `0 ≤ x ≤ k`, `cdf(x)` is
exactly 1 at `x = k` and `cdf[floor(x)] / cdf[k-1]` otherwise, and is
constant on each open interval `(i, i+1)`, equal to its value at `i`. -/
theorem cdf_step_function :
    ∀ (w : List F64) (c : Categorical) (x : ℚ), Categorical.new w = .ok c →
      0 ≤ x → x ≤ (c.cdf.length : ℚ) →
      (c.cdfAt x = some (if x = (c.cdf.length : ℚ) then 1
          else c.cdf.getD (⌊x⌋.toNat) 0 / c.cdf.getD (c.cdf.length - 1) 0)) ∧
      (∀ i : ℕ, (i : ℚ) < x → x < (i : ℚ) + 1 → c.cdfAt x = c.cdfAt (i : ℚ)) := by
  intro w c x h h0 hk
  constructor
  · rw [Categorical.cdfAt, if_pos ⟨h0, hk⟩]
    by_cases hx : x = (c.cdf.length : ℚ)
    · rw [if_pos hx, if_pos hx]
    · rw [if_neg hx, if_neg hx, new_cdf_max_eq_getD h]
  · intro i hi1 hi2
    have hxk : x ≠ (c.cdf.length : ℚ) := by
      intro he
      rw [he] at hi1 hi2
      have h1 : i < c.cdf.length := by exact_mod_cast hi1
      have h2 : ((c.cdf.length : ℚ)) < (i : ℚ) + 1 := hi2
      have h3 : ((i : ℚ)) + 1 ≤ (c.cdf.length : ℚ) := by exact_mod_cast h1
      linarith
    have hxlt : x < (c.cdf.length : ℚ) := lt_of_le_of_ne hk hxk
    have hiltk : (i : ℚ) < (c.cdf.length : ℚ) := hi1.trans hxlt
    have hfloor : ⌊x⌋ = (i : ℤ) := by
      rw [Int.floor_eq_iff]
      constructor
      · exact_mod_cast le_of_lt hi1
      · exact_mod_cast hi2
    have hile : (0 : ℚ) ≤ (i : ℚ) := by positivity
    rw [Categorical.cdfAt, Categorical.cdfAt, if_pos ⟨h0, hk⟩, if_neg hxk,
      if_pos ⟨hile, le_of_lt hiltk⟩, if_neg (ne_of_lt hiltk),
      hfloor, Int.floor_natCast]

/-- Claim C6: `cdf` hits the asserted-precondition panic (modelled by `none`)
for every `x` with `x < 0` or `x > k`. -/
theorem cdf_panics_out_of_range :
    ∀ (w : List F64) (c : Categorical) (x : ℚ), Categorical.new w = .ok c →
      (x < 0 ∨ (c.cdf.length : ℚ) < x) → c.cdfAt x = none := by
  intro w c x _ hx
  rw [Categorical.cdfAt, if_neg]
  intro hcon
  rcases hx with hx | hx
  · linarith [hcon.1]
  · linarith [hcon.2]

/-- Claim C7: the cdf is non-decreasing on `[0, k]`, and `cdf(k)` is
exactly 1. -/
theorem cdf_monotone_and_one_at_k :
    ∀ (w : List F64) (c : Categorical) (x y : ℚ), Categorical.new w = .ok c →
      0 ≤ x → x ≤ y → y ≤ (c.cdf.length : ℚ) →
      ((c.cdfAt x).getD 0 ≤ (c.cdfAt y).getD 0) ∧
        c.cdfAt ((c.cdf.length : ℚ)) = some 1 := by
  intro w c x y h hx0 hxy hyk
  have hS : 0 < c.cdf_max := new_cdf_max_pos h
  have hxk : x ≤ (c.cdf.length : ℚ) := le_trans hxy hyk
  have hy0 : 0 ≤ y := le_trans hx0 hxy
  have hone : c.cdfAt ((c.cdf.length : ℚ)) = some 1 := by
    have hcond : 0 ≤ ((c.cdf.length : ℚ)) ∧
        ((c.cdf.length : ℚ)) ≤ ((c.cdf.length : ℚ)) := ⟨by positivity, le_refl _⟩
    rw [Categorical.cdfAt, if_pos hcond, if_pos rfl]
  refine ⟨?_, hone⟩
  have hval : ∀ z : ℚ, 0 ≤ z → z < (c.cdf.length : ℚ) →
      (c.cdfAt z).getD 0 = c.cdf.getD (⌊z⌋.toNat) 0 / c.cdf_max := by
    intro z hz0 hzk
    rw [Categorical.cdfAt, if_pos ⟨hz0, le_of_lt hzk⟩, if_neg (ne_of_lt hzk), Option.getD_some]
  have hfloor_lt : ∀ z : ℚ, 0 ≤ z → z < (c.cdf.length : ℚ) → ⌊z⌋.toNat < c.cdf.length := by
    intro z hz0 hzk
    have h1 : ⌊z⌋ < (c.cdf.length : ℤ) := by
      have := Int.floor_le z
      exact_mod_cast lt_of_le_of_lt this hzk
    have h2 : 0 ≤ ⌊z⌋ := Int.floor_nonneg.mpr hz0
    omega
  by_cases hyk' : y = (c.cdf.length : ℚ)
  · rw [hyk', hone]
    simp only [Option.getD_some]
    by_cases hxk' : x = (c.cdf.length : ℚ)
    · rw [hxk', hone]
      simp
    · have hxlt : x < (c.cdf.length : ℚ) := lt_of_le_of_ne hxk hxk'
      rw [hval x hx0 hxlt]
      rw [div_le_one hS]
      exact new_cdf_le_max h (hfloor_lt x hx0 hxlt)
  · have hylt : y < (c.cdf.length : ℚ) := lt_of_le_of_ne hyk hyk'
    have hxlt : x < (c.cdf.length : ℚ) := lt_of_le_of_lt hxy hylt
    rw [hval x hx0 hxlt, hval y hy0 hylt]
    rw [div_le_div_iff_of_pos_right hS]
    have hff : ⌊x⌋ ≤ ⌊y⌋ := Int.floor_le_floor hxy
    have htn : ⌊x⌋.toNat ≤ ⌊y⌋.toNat := by omega
    exact new_cdf_mono h htn (hfloor_lt y hy0 hylt)




theorem linSearch_spec (draw : ℚ) (l : List ℚ) :
    ∀ idx : ℕ, (∃ e ∈ l, draw ≤ e) →
      ∃ m, linSearch draw l idx = some (idx + m) ∧ m < l.length ∧
        draw ≤ l.getD m 0 ∧ ∀ j < m, l.getD j 0 < draw := by
  induction l with
  | nil => intro idx he; simp at he
  | cons e rest ih =>
    intro idx he
    by_cases hd : draw > e
    · have he' : ∃ x ∈ rest, draw ≤ x := by
        obtain ⟨x, hx, hle⟩ := he
        rcases List.mem_cons.mp hx with rfl | hm
        · exact absurd hle (not_le.mpr hd)
        · exact ⟨x, hm, hle⟩
      obtain ⟨m, hm1, hm2, hm3, hm4⟩ := ih (idx + 1) he'
      refine ⟨m + 1, ?_, by simpa using Nat.succ_lt_succ hm2, ?_, ?_⟩
      · rw [linSearch, if_pos hd, hm1]
        congr 1
        omega
      · simpa [List.getD_cons_succ] using hm3
      · intro j hj
        cases j with
        | zero => simpa using hd
        | succ j' =>
          have := hm4 j' (by omega)
          simpa [List.getD_cons_succ] using this
    · refine ⟨0, ?_, by simp, ?_, ?_⟩
      · rw [linSearch, if_neg hd]
        simp
      · simpa using not_lt.mp hd
      · intro j hj
        omega

theorem skipZeros_spec (l : List ℚ) :
    ∀ idx : ℕ, (∃ e ∈ l, e ≠ 0) →
      ∃ m, skipZeros l idx = some (idx + m, l.drop m) ∧ m < l.length ∧
        l.getD m 0 ≠ 0 ∧ ∀ j < m, l.getD j 0 = 0 := by
  induction l with
  | nil => intro idx he; simp at he
  | cons e rest ih =>
    intro idx he
    by_cases hz : e = 0
    · have he' : ∃ x ∈ rest, x ≠ 0 := by
        obtain ⟨x, hx, hne⟩ := he
        rcases List.mem_cons.mp hx with rfl | hm
        · exact absurd hz hne
        · exact ⟨x, hm, hne⟩
      obtain ⟨m, hm1, hm2, hm3, hm4⟩ := ih (idx + 1) he'
      refine ⟨m + 1, ?_, by simpa using Nat.succ_lt_succ hm2, ?_, ?_⟩
      · rw [skipZeros, if_pos hz, hm1]
        congr 2
        omega
      · simpa [List.getD_cons_succ] using hm3
      · intro j hj
        cases j with
        | zero => simpa using hz
        | succ j' =>
          have := hm4 j' (by omega)
          simpa [List.getD_cons_succ] using this
    · refine ⟨0, ?_, by simp, by simpa using hz, ?_⟩
      · rw [skipZeros, if_neg hz]
        simp
      · intro j hj
        omega

theorem getLastD_mem (l : List ℚ) (h : l ≠ []) : l.getLastD 0 ∈ l := by
  have hpos : 0 < l.length := List.length_pos.mpr h
  rw [getLastD_eq_getD _ h, List.getD_eq_getElem _ _ (by omega)]
  exact List.getElem_mem _

theorem new_weight_getD {w : List F64} {c : Categorical}
    (h : Categorical.new w = .ok c) {m : ℕ} (hm : m < c.cdf.length) :
    (w.map F64.val).getD m 0 =
      c.cdf.getD m 0 - (if m = 0 then 0 else c.cdf.getD (m - 1) 0) := by
  obtain ⟨hv, hcdf, _⟩ := new_ok_elim h
  rw [hcdf] at hm ⊢
  rw [cumsum_length] at hm
  cases m with
  | zero =>
    rw [if_pos rfl, sub_zero, cumsum_getD_zero _ (by intro he; rw [he] at hm; simp at hm)]
  | succ m' =>
    rw [if_neg (Nat.succ_ne_zero m'), Nat.succ_sub_one,
      cumsum_getD_succ _ m' hm]
    ring

theorem sampleAt_spec {w : List F64} {c : Categorical} {u : ℚ}
    (h : Categorical.new w = .ok c) (hu0 : 0 ≤ u) (hu1 : u < 1) :
    ∃ i, c.sampleAt u = some i ∧ i < c.cdf.length ∧
      u * c.cdf_max ≤ c.cdf.getD i 0 ∧
      (u * c.cdf_max ≠ 0 → ∀ j < i, c.cdf.getD j 0 < u * c.cdf_max) ∧
      (u * c.cdf_max = 0 → c.cdf.getD i 0 ≠ 0 ∧ ∀ j < i, c.cdf.getD j 0 = 0) ∧
      0 < (w.map F64.val).getD i 0 := by
  have hS : 0 < c.cdf_max := new_cdf_max_pos h
  have hcne : c.cdf ≠ [] := new_cdf_ne_nil h
  by_cases hdz : u * c.cdf_max = 0
  · have hne : ∃ e ∈ c.cdf, e ≠ 0 :=
      ⟨c.cdf.getLastD 0, getLastD_mem _ hcne, by
        rw [← Categorical.cdf_max]; exact ne_of_gt hS⟩
    obtain ⟨m, hm1, hm2, hm3, hm4⟩ := skipZeros_spec c.cdf 0 hne
    have hmpos : 0 < c.cdf.getD m 0 := lt_of_le_of_ne (new_cdf_nonneg h m) (Ne.symm hm3)
    have hdrop : c.cdf.drop m = c.cdf.getD m 0 :: c.cdf.drop (m + 1) := by
      rw [List.getD_eq_getElem _ _ hm2]
      exact List.drop_eq_getElem_cons hm2
    refine ⟨m, ?_, hm2, ?_, ?_, ?_, ?_⟩
    · rw [Categorical.sampleAt, if_pos hdz, hm1, hdrop]
      simp only [linSearch]
      rw [if_neg (by rw [hdz]; exact not_lt.mpr (le_of_lt hmpos)), Nat.zero_add]
    · rw [hdz]
      exact le_of_lt hmpos
    · intro hcon
      exact absurd hdz hcon
    · intro _
      exact ⟨hm3, hm4⟩
    · rw [new_weight_getD h hm2]
      cases m with
      | zero => simpa using hmpos
      | succ m' =>
        rw [if_neg (Nat.succ_ne_zero m'), Nat.succ_sub_one, hm4 m' (Nat.lt_succ_self m')]
        simpa using hmpos
  · have hupos : 0 < u := by
      rcases lt_or_eq_of_le hu0 with hlt | heq
      · exact hlt
      · exact absurd (by rw [← heq, zero_mul]) hdz
    have hdpos : 0 < u * c.cdf_max := mul_pos hupos hS
    have hdlt : u * c.cdf_max < c.cdf_max := by
      nlinarith
    have hex : ∃ e ∈ c.cdf, u * c.cdf_max ≤ e :=
      ⟨c.cdf.getLastD 0, getLastD_mem _ hcne, by
        rw [← Categorical.cdf_max]; exact le_of_lt hdlt⟩
    obtain ⟨m, hm1, hm2, hm3, hm4⟩ := linSearch_spec (u * c.cdf_max) c.cdf 0 hex
    refine ⟨m, ?_, hm2, hm3, ?_, ?_, ?_⟩
    · rw [Categorical.sampleAt, if_neg hdz, hm1, Nat.zero_add]
    · intro _
      exact hm4
    · intro hcon
      exact absurd hcon hdz
    · rw [new_weight_getD h hm2]
      cases m with
      | zero =>
        rw [if_pos rfl, sub_zero]
        exact lt_of_lt_of_le hdpos hm3
      | succ m' =>
        rw [if_neg (Nat.succ_ne_zero m'), Nat.succ_sub_one]
        have := hm4 m' (Nat.lt_succ_self m')
        linarith




/-- Claim C4: `sample` computes `draw = u * cdf_max` and returns the first
index with `draw ≤ cdf[index]` (first skipping leading zero entries when the
draw is exactly zero), and never returns an index whose weight is zero. -/
theorem sample_inverse_cdf_search :
    ∀ (w : List F64) (c : Categorical) (u : ℚ), Categorical.new w = .ok c →
      0 ≤ u → u < 1 →
      ∃ i, c.sampleAt u = some i ∧
        u * c.cdf_max ≤ c.cdf.getD i 0 ∧
        (u * c.cdf_max ≠ 0 → ∀ j < i, c.cdf.getD j 0 < u * c.cdf_max) ∧
        (u * c.cdf_max = 0 → c.cdf.getD i 0 ≠ 0 ∧ ∀ j < i, c.cdf.getD j 0 = 0) ∧
        0 < (w.map F64.val).getD i 0 := by
  intro w c u h hu0 hu1
  obtain ⟨i, h1, _, h3, h4, h5, h6⟩ := sampleAt_spec h hu0 hu1
  exact ⟨i, h1, h3, h4, h5, h6⟩

/-- Claim C5: the linear search of `sample` terminates with an index below
`k`; every unchecked read stays in bounds (an out-of-bounds read would be
`none` in this model). -/
theorem sample_terminates_in_bounds :
    ∀ (w : List F64) (c : Categorical) (u : ℚ), Categorical.new w = .ok c →
      0 ≤ u → u < 1 →
      ∃ i, c.sampleAt u = some i ∧ i < c.cdf.length := by
  intro w c u h hu0 hu1
  obtain ⟨i, h1, h2, _⟩ := sampleAt_spec h hu0 hu1
  exact ⟨i, h1, h2⟩

/-- Claim C10: no operation mutates the distribution; in particular the
mutable-receiver `Sample::sample` returns the receiver with both fields
unchanged, and its result is that of the immutable sampling query. -/
theorem operations_leave_fields_unchanged :
    ∀ (c : Categorical) (u : ℚ),
      (c.sampleMut u).2.norm_pmf = c.norm_pmf ∧
        (c.sampleMut u).2.cdf = c.cdf ∧
        (c.sampleMut u).2 = c ∧
        (c.sampleMut u).1 = c.sampleAt u :=
  fun _ _ => ⟨rfl, rfl, rfl, rfl⟩




theorem foldl_enumFrom_eq (l : List ℚ) :
    ∀ (n : ℕ) (a : ℚ),
      (l.enumFrom n).foldl (fun acc p => acc + (p.1 : ℚ) * p.2) a =
        a + ∑ i ∈ Finset.range l.length, ((n + i : ℕ) : ℚ) * l.getD i 0 := by
  induction l with
  | nil => intro n a; simp
  | cons x xs ih =>
    intro n a
    rw [List.enumFrom, List.foldl_cons, ih (n + 1) (a + (n : ℚ) * x)]
    rw [List.length_cons, Finset.sum_range_succ']
    simp only [List.getD_cons_succ, List.getD_cons_zero, Nat.add_zero, Nat.cast_add]
    ring_nf
    rw [Finset.sum_congr rfl]
    intro i _
    ring

theorem mean_eq_sum (c : Categorical) :
    c.mean = ∑ i ∈ Finset.range c.norm_pmf.length, (i : ℚ) * c.norm_pmf.getD i 0 := by
  rw [Categorical.mean, List.enum, foldl_enumFrom_eq]
  simp




/-- Claim C8: `mean()` equals the index-weighted sum of the normalized
masses; concretely, weights `[0, 1/4, 1/2, 1/4]` give mean 2 and weights
`[3/4, 1/4]` give mean 1/4. -/
theorem mean_weighted_index_sum :
    (∀ (w : List F64) (c : Categorical), Categorical.new w = .ok c →
      c.mean = ∑ i ∈ Finset.range c.norm_pmf.length, (i : ℚ) * c.norm_pmf.getD i 0)
    ∧ (∀ c : Categorical,
        Categorical.new [F64.fin 0, F64.fin (1/4), F64.fin (1/2), F64.fin (1/4)] = .ok c →
        c.mean = 2)
    ∧ (∀ c : Categorical,
        Categorical.new [F64.fin (3/4), F64.fin (1/4)] = .ok c → c.mean = 1/4) := by
  refine ⟨fun w c _ => mean_eq_sum c, ?_, ?_⟩
  · intro c h
    have he : Categorical.new [F64.fin 0, F64.fin (1/4), F64.fin (1/2), F64.fin (1/4)] =
        .ok ⟨[0, 1/4, 1/2, 1/4], [0, 1/4, 3/4, 1]⟩ := by
      norm_num [Categorical.new, is_valid_prob_mass, F64.lt, F64.isNaN, F64.beq, F64.val,
        cumsum, cumsumFrom, List.getLastD]
    rw [he] at h
    injection h with hh
    subst hh
    norm_num [Categorical.mean, List.enum, List.enumFrom]
  · intro c h
    have he : Categorical.new [F64.fin (3/4), F64.fin (1/4)] =
        .ok ⟨[3/4, 1/4], [3/4, 1]⟩ := by
      norm_num [Categorical.new, is_valid_prob_mass, F64.lt, F64.isNaN, F64.beq, F64.val,
        cumsum, cumsumFrom, List.getLastD]
    rw [he] at h
    injection h with hh
    subst hh
    norm_num [Categorical.mean, List.enum, List.enumFrom]

theorem cumsumFrom_mul (t : ℚ) (l : List ℚ) :
    ∀ a : ℚ, cumsumFrom (t * a) (l.map (fun q => t * q)) =
      (cumsumFrom a l).map (fun q => t * q) := by
  induction l with
  | nil => intro a; rfl
  | cons x xs ih =>
    intro a
    simp only [List.map_cons, cumsumFrom]
    rw [← mul_add, ih (a + x)]

theorem cumsum_mul (t : ℚ) (l : List ℚ) :
    cumsum (l.map (fun q => t * q)) = (cumsum l).map (fun q => t * q) := by
  have h := cumsumFrom_mul t l 0
  rw [mul_zero] at h
  exact h

theorem getLastD_map_mul (t : ℚ) (L : List ℚ) :
    (L.map (fun q => t * q)).getLastD 0 = t * L.getLastD 0 := by
  induction L with
  | nil => simp
  | cons x xs ih =>
    cases xs with
    | nil => simp
    | cons y ys => simpa [List.getLastD_cons] using ih

theorem scale_lt_zero (t : ℚ) (ht : 0 < t) (x : F64) :
    (F64.scale t x).lt (.fin 0) = x.lt (.fin 0) := by
  cases x with
  | nan => rfl
  | fin a =>
    simp only [F64.scale, F64.lt, decide_eq_decide]
    constructor
    · intro hlt
      by_contra hge
      exact absurd hlt (not_lt.mpr (mul_nonneg (le_of_lt ht) (not_lt.mp hge)))
    · intro hlt
      exact mul_neg_of_pos_of_neg ht hlt

theorem scale_isNaN (t : ℚ) (x : F64) : (F64.scale t x).isNaN = x.isNaN := by
  cases x <;> rfl

theorem scale_beq_zero (t : ℚ) (ht : 0 < t) (x : F64) :
    (F64.scale t x).beq (.fin 0) = x.beq (.fin 0) := by
  cases x with
  | nan => rfl
  | fin a =>
    simp only [F64.scale, F64.beq, decide_eq_decide]
    constructor
    · intro hz
      rcases mul_eq_zero.mp hz with hz | hz
      · exact absurd hz (ne_of_gt ht)
      · exact hz
    · intro hz
      rw [hz, mul_zero]

theorem valid_map_scale {w : List F64} {t : ℚ} (ht : 0 < t) :
    is_valid_prob_mass (w.map (F64.scale t)) = is_valid_prob_mass w := by
  unfold is_valid_prob_mass
  rw [List.any_map, List.all_map]
  have h1 : ((fun x => x.lt (.fin 0) || x.isNaN) ∘ F64.scale t) =
      fun x : F64 => x.lt (.fin 0) || x.isNaN := by
    funext x
    simp only [Function.comp_apply, scale_lt_zero t ht, scale_isNaN]
  have h2 : ((fun x => x.beq (.fin 0)) ∘ F64.scale t) =
      fun x : F64 => x.beq (.fin 0) := by
    funext x
    simp only [Function.comp_apply, scale_beq_zero t ht]
  rw [h1, h2]

theorem val_scale (t : ℚ) (x : F64) : (F64.scale t x).val = t * x.val := by
  cases x with
  | nan => simp [F64.scale, F64.val]
  | fin a => rfl

/-- Claim C9: the mean is invariant under uniform rescaling of the input
weights by any positive factor. -/
theorem mean_scaling_invariant :
    ∀ (w : List F64) (t : ℚ) (d : Categorical), 0 < t →
      Categorical.new w = .ok d →
      ∃ d', Categorical.new (w.map (F64.scale t)) = .ok d' ∧ d'.mean = d.mean := by
  intro w t d ht h
  obtain ⟨hv, hcdf, hnorm⟩ := new_ok_elim h
  have hv' : is_valid_prob_mass (w.map (F64.scale t)) = true := by
    rw [valid_map_scale ht]
    exact hv
  have hval : (w.map (F64.scale t)).map F64.val =
      (w.map F64.val).map (fun q => t * q) := by
    rw [List.map_map, List.map_map]
    congr 1
    funext x
    simp only [Function.comp_apply, val_scale]
  have hstep : Categorical.new (w.map (F64.scale t)) =
      .ok ⟨((w.map (F64.scale t)).map F64.val).map
            (fun x => x / (cumsum ((w.map (F64.scale t)).map F64.val)).getLastD 0),
          cumsum ((w.map (F64.scale t)).map F64.val)⟩ := by
    rw [Categorical.new, hv']
    simp
  refine ⟨_, hstep, ?_⟩
  rw [Categorical.mean, Categorical.mean]
  have hpmf : ((w.map (F64.scale t)).map F64.val).map
      (fun x => x / (cumsum ((w.map (F64.scale t)).map F64.val)).getLastD 0) =
      d.norm_pmf := by
    rw [hval, cumsum_mul, getLastD_map_mul, List.map_map, hnorm]
    apply List.map_congr_left
    intro x _
    simp only [Function.comp_apply]
    rw [mul_div_mul_left _ _ (ne_of_gt ht)]
  rw [hpmf]




/-- Concrete instance of the C1 theorem at weights `[1, 1]`, index 0. -/
theorem new_prefix_sum_and_normalization_witness :
    (⟨[1/2, 1/2], [1, 2]⟩ : Categorical).cdf.getD 0 0 =
        (([F64.fin 1, F64.fin 1].take (0 + 1)).map F64.val).sum ∧
      (⟨[1/2, 1/2], [1, 2]⟩ : Categorical).norm_pmf.getD 0 0 =
        ([F64.fin 1, F64.fin 1].getD 0 F64.nan).val /
          (⟨[1/2, 1/2], [1, 2]⟩ : Categorical).cdf.getD
            ([F64.fin 1, F64.fin 1].length - 1) 0 :=
  new_prefix_sum_and_normalization [F64.fin 1, F64.fin 1] ⟨[1/2, 1/2], [1, 2]⟩
    (by norm_num [Categorical.new, is_valid_prob_mass, F64.lt, F64.isNaN, F64.beq,
      F64.val, cumsum, cumsumFrom, List.getLastD]) 0 (by norm_num)

/-- Concrete instance of the C3 theorem: at weights `[1]`, the cdf value at
`1/2` equals its value at 0. -/
theorem cdf_step_function_witness :
    (⟨[1], [1]⟩ : Categorical).cdfAt (1/2) =
      (⟨[1], [1]⟩ : Categorical).cdfAt ((0 : ℕ) : ℚ) :=
  (cdf_step_function [F64.fin 1] ⟨[1], [1]⟩ (1/2)
    (by norm_num [Categorical.new, is_valid_prob_mass, F64.lt, F64.isNaN, F64.beq,
      F64.val, cumsum, cumsumFrom, List.getLastD])
    (by norm_num) (by norm_num)).2 0 (by norm_num) (by norm_num)

/-- Concrete instance of the C4 theorem: weights `[0, 1]` with an exact-zero
draw; the sampled index has positive weight. -/
theorem sample_inverse_cdf_search_witness :
    ∃ i, (⟨[0, 1], [0, 1]⟩ : Categorical).sampleAt 0 = some i ∧
      0 * (⟨[0, 1], [0, 1]⟩ : Categorical).cdf_max ≤
        (⟨[0, 1], [0, 1]⟩ : Categorical).cdf.getD i 0 ∧
      (0 * (⟨[0, 1], [0, 1]⟩ : Categorical).cdf_max ≠ 0 →
        ∀ j < i, (⟨[0, 1], [0, 1]⟩ : Categorical).cdf.getD j 0 <
          0 * (⟨[0, 1], [0, 1]⟩ : Categorical).cdf_max) ∧
      (0 * (⟨[0, 1], [0, 1]⟩ : Categorical).cdf_max = 0 →
        (⟨[0, 1], [0, 1]⟩ : Categorical).cdf.getD i 0 ≠ 0 ∧
          ∀ j < i, (⟨[0, 1], [0, 1]⟩ : Categorical).cdf.getD j 0 = 0) ∧
      0 < ([F64.fin 0, F64.fin 1].map F64.val).getD i 0 :=
  sample_inverse_cdf_search [F64.fin 0, F64.fin 1] ⟨[0, 1], [0, 1]⟩ 0
    (by norm_num [Categorical.new, is_valid_prob_mass, F64.lt, F64.isNaN, F64.beq,
      F64.val, cumsum, cumsumFrom, List.getLastD]) le_rfl (by norm_num)

/-- Concrete instance of the C5 theorem at weights `[1, 1]`, draw 1/2. -/
theorem sample_terminates_in_bounds_witness :
    ∃ i, (⟨[1/2, 1/2], [1, 2]⟩ : Categorical).sampleAt (1/2) = some i ∧
      i < (⟨[1/2, 1/2], [1, 2]⟩ : Categorical).cdf.length :=
  sample_terminates_in_bounds [F64.fin 1, F64.fin 1] ⟨[1/2, 1/2], [1, 2]⟩ (1/2)
    (by norm_num [Categorical.new, is_valid_prob_mass, F64.lt, F64.isNaN, F64.beq,
      F64.val, cumsum, cumsumFrom, List.getLastD]) (by norm_num) (by norm_num)

/-- Concrete instance of the C6 theorem: `cdf(-1)` panics on weights `[1]`. -/
theorem cdf_panics_out_of_range_witness :
    (⟨[1], [1]⟩ : Categorical).cdfAt (-1) = none :=
  cdf_panics_out_of_range [F64.fin 1] ⟨[1], [1]⟩ (-1)
    (by norm_num [Categorical.new, is_valid_prob_mass, F64.lt, F64.isNaN, F64.beq,
      F64.val, cumsum, cumsumFrom, List.getLastD]) (Or.inl (by norm_num))

/-- Concrete instance of the C7 theorem at weights `[1, 1]`, `x = 0`,
`y = 1`. -/
theorem cdf_monotone_and_one_at_k_witness :
    ((⟨[1/2, 1/2], [1, 2]⟩ : Categorical).cdfAt 0).getD 0 ≤
        ((⟨[1/2, 1/2], [1, 2]⟩ : Categorical).cdfAt 1).getD 0 ∧
      (⟨[1/2, 1/2], [1, 2]⟩ : Categorical).cdfAt
        (((⟨[1/2, 1/2], [1, 2]⟩ : Categorical).cdf.length : ℚ)) = some 1 :=
  cdf_monotone_and_one_at_k [F64.fin 1, F64.fin 1] ⟨[1/2, 1/2], [1, 2]⟩ 0 1
    (by norm_num [Categorical.new, is_valid_prob_mass, F64.lt, F64.isNaN, F64.beq,
      F64.val, cumsum, cumsumFrom, List.getLastD]) le_rfl (by norm_num) (by norm_num)

/-- Concrete instance of the C8 theorem: weights `[0, 1/4, 1/2, 1/4]` give
mean 2. -/
theorem mean_weighted_index_sum_witness :
    (⟨[0, 1/4, 1/2, 1/4], [0, 1/4, 3/4, 1]⟩ : Categorical).mean = 2 :=
  mean_weighted_index_sum.2.1 ⟨[0, 1/4, 1/2, 1/4], [0, 1/4, 3/4, 1]⟩
    (by norm_num [Categorical.new, is_valid_prob_mass, F64.lt, F64.isNaN, F64.beq,
      F64.val, cumsum, cumsumFrom, List.getLastD])

/-- Concrete instance of the C9 theorem: doubling the weight array `[1]`
preserves the mean. -/
theorem mean_scaling_invariant_witness :
    ∃ d', Categorical.new ([F64.fin 1].map (F64.scale 2)) = .ok d' ∧
      d'.mean = (⟨[1], [1]⟩ : Categorical).mean :=
  mean_scaling_invariant [F64.fin 1] 2 ⟨[1], [1]⟩ (by norm_num)
    (by norm_num [Categorical.new, is_valid_prob_mass, F64.lt, F64.isNaN, F64.beq,
      F64.val, cumsum, cumsumFrom, List.getLastD])


end Statrs
